import Mathlib

/-!
Shallow embedding of `src/etl/normalize_data.py` (library-management-system).

Strings are modelled as `List Char`.  The pandas CSV readers are invoked with
`keep_default_na=False`, so every cell of both data frames is a plain Python
string; the `pd.isna` branches of the helpers are modelled by an `Option`
wrapper where the spec's claims need it (`normalize_whitespace`), and the
plain-string bodies are used inside the pipelines.  Python `\s` on the ASCII
range is space, tab, newline, carriage return, vertical tab and form feed.
-/

/-- Whitespace characters recognised by Python's regex `\s` (ASCII range). -/
def isPyWhite (c : Char) : Bool :=
  c == ' ' || c == '\t' || c == '\n' || c == '\r' || c == '\x0b' || c == '\x0c'

/-- One pass of `re.sub(r'\s+', ' ', s)`: every maximal run of whitespace
becomes a single space.  The flag records whether the previous character was
part of a whitespace run already rewritten. -/
def collapseWS (pw : Bool) : List Char → List Char
  | [] => []
  | c :: l =>
    if isPyWhite c then
      if pw then collapseWS true l else ' ' :: collapseWS true l
    else c :: collapseWS false l

/-- Drop the trailing characters satisfying `p` (the right half of Python's
`str.strip`). -/
def dropTrailWhile (p : Char → Bool) : List Char → List Char
  | [] => []
  | c :: l =>
    let r := dropTrailWhile p l
    if r.isEmpty then (if p c then [] else [c]) else c :: r

/-- Python `str.strip` with an arbitrary character class: remove leading and
trailing characters satisfying `p`. -/
def stripEnds (p : Char → Bool) (l : List Char) : List Char :=
  dropTrailWhile p (l.dropWhile p)

/-- Body of `normalize_whitespace` on an actual string:
`re.sub(r'\s+', ' ', str(s)).strip()`. -/
def normWS (l : List Char) : List Char :=
  stripEnds isPyWhite (collapseWS false l)

/-- Embeds `normalize_whitespace` (normalize_data.py lines 22-37); `none`
models a pandas NA value, which the source maps to the empty string. -/
def normalize_whitespace : Option (List Char) → List Char
  | none => []
  | some l => normWS l

/-- Python `str.islower` on the ASCII range: at least one cased character and
no upper-case character. -/
def pyIsLower (l : List Char) : Bool :=
  l.any (fun c => c.isLower) && l.all (fun c => !c.isUpper)

/-- Python `str.isupper` on the ASCII range: at least one cased character and
no lower-case character. -/
def pyIsUpper (l : List Char) : Bool :=
  l.any (fun c => c.isUpper) && l.all (fun c => !c.isLower)

/-- A character is cased (ASCII). -/
def isCased (c : Char) : Bool := c.isLower || c.isUpper

/-- Python `str.title`, character by character: a cased character is upper-cased
when the previous character was uncased and lower-cased otherwise. -/
def pyTitleAux (prevCased : Bool) : List Char → List Char
  | [] => []
  | c :: l =>
    if isCased c then
      (if prevCased then c.toLower else c.toUpper) :: pyTitleAux true l
    else c :: pyTitleAux false l

/-- Python `str.title`. -/
def pyTitle (l : List Char) : List Char := pyTitleAux false l

/-- Embeds `title_case` (normalize_data.py lines 40-57): normalize whitespace,
then title-case only the strings that are entirely lower- or upper-case. -/
def title_case (l : List Char) : List Char :=
  let s := normWS l
  if s.isEmpty then s
  else if pyIsLower s || pyIsUpper s then pyTitle s else s

/-- Separator characters of `re.split(r'[;,|]', raw)`. -/
def isSepChar (c : Char) : Bool := c == ';' || c == ',' || c == '|'

/-- Embeds `re.split(r'[;,|]', raw)`: `n` separator occurrences produce `n + 1`
parts, empty parts included. -/
def splitSeps : List Char → List (List Char)
  | [] => [[]]
  | c :: rest =>
    if isSepChar c then [] :: splitSeps rest
    else
      match splitSeps rest with
      | [] => [[c]]
      | p :: ps => (c :: p) :: ps

/-- Embeds `raw.replace('&', ',')` character-wise. -/
def ampToComma (c : Char) : Char := if c == '&' then ',' else c

/-- Attempt to match the regex `\s+(?i:and)\s+` at the current position (the
caller guarantees the first character is whitespace); returns the rest of the
input after the match.  The greedy `\s+` runs are maximal, which is the only
way this pattern can match since `a` and the characters after the final run
are not whitespace. -/
def tryMatchAnd (l : List Char) : Option (List Char) :=
  match l.dropWhile isPyWhite with
  | a :: n :: d :: rest =>
    if a.toLower == 'a' && n.toLower == 'n' && d.toLower == 'd' then
      match rest with
      | c :: _ => if isPyWhite c then some (rest.dropWhile isPyWhite) else none
      | [] => none
    else none
  | _ => none

/-- Embeds `re.sub(r'\s+(?i:and)\s+', ',', raw)`, scanning left to right; the
fuel argument bounds the recursion (every step consumes at least one input
character, so `l.length` fuel is always enough). -/
def subAndFuel : Nat → List Char → List Char
  | 0, l => l
  | _ + 1, [] => []
  | fuel + 1, c :: rest =>
    if isPyWhite c then
      match tryMatchAnd (c :: rest) with
      | some rest2 => ',' :: subAndFuel fuel rest2
      | none => c :: subAndFuel fuel rest
    else c :: subAndFuel fuel rest

/-- The `and`-to-comma rewriting step of `split_authors`. -/
def subAnd (l : List Char) : List Char := subAndFuel l.length l

/-- Python `name.lower()` on the ASCII range: the case-insensitive
deduplication key. -/
def lowerKey (n : List Char) : List Char := n.map Char.toLower

/-- First-occurrence deduplication with an explicit seen set, as performed by
the `seen`/`out` loop of `split_authors` and by pandas `drop_duplicates`.
`key` extracts the deduplication key of an element. -/
def dedupBy {α κ : Type} [DecidableEq κ] (key : α → κ) (seen : List κ) :
    List α → List α
  | [] => []
  | a :: l =>
    if key a ∈ seen then dedupBy key seen l
    else a :: dedupBy key (key a :: seen) l

/-- The pre-deduplication name list of `split_authors` (normalize_data.py
line 84): rewrite joiners, split on separators, keep the parts with non-empty
whitespace normalization, title-case them. -/
def rawNames (field : List Char) : List (List Char) :=
  ((splitSeps ((subAnd field).map ampToComma)).filter
      (fun p => !(normWS p).isEmpty)).map title_case

/-- Embeds `split_authors` (normalize_data.py lines 60-92).  The leading guard
is `not str(field).strip()` (the `pd.isna` disjunct cannot fire on data read
with `keep_default_na=False`). -/
def split_authors (field : List Char) : List (List Char) :=
  if (stripEnds isPyWhite field).isEmpty then []
  else dedupBy lowerKey [] (rawNames field)

/-- A raw row of the books TSV file: the three columns the pipeline reads
(every cell is a string because of `keep_default_na=False`). -/
structure BookRow where
  ISBN10 : List Char
  Title : List Char
  Author : List Char
deriving DecidableEq

/-- Whitespace normalization of every column of a book row
(`bdf[col].map(normalize_whitespace)`). -/
def normBookRow (r : BookRow) : BookRow :=
  ⟨normWS r.ISBN10, normWS r.Title, normWS r.Author⟩

/-- Mutable state of the author loop of `process_books`: the
`author_name_to_id` dict (as an association list, newest first), the
`authors_rows` accumulator and the `book_authors_rows` accumulator. -/
structure BAState where
  m : List (List Char × Nat)
  arows : List (Nat × List Char)
  brows : List (List Char × Nat)
deriving DecidableEq

/-- Lookup in the `author_name_to_id` association list (Python dict access,
keys are pairwise distinct). -/
def assocLookup (k : List Char) : List (List Char × Nat) → Option Nat
  | [] => none
  | e :: es => if e.1 = k then some e.2 else assocLookup k es

/-- Body of the inner `for name in names` loop of `process_books` (lines
141-148): resolve the name case-insensitively, assigning
`len(author_name_to_id) + 1` as a fresh id when unseen, and append a link. -/
def nameStep (isbn : List Char) (st : BAState) (name : List Char) : BAState :=
  let key := lowerKey name
  match assocLookup key st.m with
  | some aid => ⟨st.m, st.arows, st.brows ++ [(isbn, aid)]⟩
  | none =>
    let aid := st.m.length + 1
    ⟨(key, aid) :: st.m, st.arows ++ [(aid, name)], st.brows ++ [(isbn, aid)]⟩

/-- Body of the outer `for _, row in bdf.iterrows()` loop of `process_books`. -/
def rowStep (st : BAState) (r : BookRow) : BAState :=
  (split_authors r.Author).foldl (nameStep r.ISBN10) st

/-- The author loop, flattened to one step per (isbn, name) pair. -/
def pairStep (st : BAState) (p : List Char × List Char) : BAState :=
  nameStep p.1 st p.2

/-- Rows surviving the `ISBN10` filter of `process_books` (lines 120-125):
normalize every column, then drop the rows whose ISBN10 is empty. -/
def survivors (rows : List BookRow) : List BookRow :=
  (rows.map normBookRow).filter (fun r => !r.ISBN10.isEmpty)

/-- Embeds `process_books` (normalize_data.py lines 95-153): returns the
`book`, `authors` and `book_authors` tables.  `drop_duplicates` keeps the
first occurrence; `sort_values('Author_id')` is modelled by sorting on the
first component. -/
def process_books (rows : List BookRow) :
    List (List Char × List Char) × List (Nat × List Char) ×
      List (List Char × Nat) :=
  let bdf := survivors rows
  let book := dedupBy Prod.fst [] (bdf.map (fun r => (r.ISBN10, r.Title)))
  let st := bdf.foldl rowStep ⟨[], [], []⟩
  let authors := List.insertionSort (fun a b => a.1 ≤ b.1) st.arows
  let book_authors := dedupBy id [] st.brows
  (book, authors, book_authors)

/-- A raw row of the borrowers CSV file: the columns `process_borrowers`
reads. -/
structure BorrowerRow where
  ID0000id : List Char
  first_name : List Char
  last_name : List Char
  address : List Char
  city : List Char
  state : List Char
  phone : List Char
  ssn : List Char
deriving DecidableEq

/-- An output row of the `borrower` table. -/
structure BorrowerRec where
  Card_id : List Char
  Bname : List Char
  Address : List Char
  Phone : List Char
  Ssn : List Char
deriving DecidableEq

/-- Column composition of `process_borrowers` (lines 157-166) applied to one
row: normalize every column, compose `Bname` (stripped concatenation, then
`title_case`), compose `Address` (joined with ", ", then stripped of spaces
and commas at both ends), copy `Phone`, and remove the hyphens of `ssn`. -/
def borrowerRec (r : BorrowerRow) : BorrowerRec :=
  let first := normWS r.first_name
  let last := normWS r.last_name
  let addr := normWS r.address
  let city := normWS r.city
  let state := normWS r.state
  ⟨normWS r.ID0000id,
   title_case (stripEnds isPyWhite (first ++ [' '] ++ last)),
   stripEnds (fun c => c == ' ' || c == ',')
     (addr ++ [',', ' '] ++ city ++ [',', ' '] ++ state),
   normWS r.phone,
   (normWS r.ssn).filter (fun c => !(c == '-'))⟩

/-- Embeds `process_borrowers` (normalize_data.py lines 156-169): compose the
output columns row-wise, then `drop_duplicates(subset=['Card_id'])` keeping
first occurrences. -/
def process_borrowers (rows : List BorrowerRow) : List BorrowerRec :=
  dedupBy BorrowerRec.Card_id [] (rows.map borrowerRec)

/-- Names of all authors of all surviving book rows, in processing order,
before any deduplication across rows. -/
def allAuthorNames (rows : List BookRow) : List (List Char) :=
  (survivors rows).flatMap (fun r => split_authors r.Author)

/-- The (isbn, name) pairs processed by the author loop, in order. -/
def authorPairs (rows : List BookRow) : List (List Char × List Char) :=
  (survivors rows).flatMap
    (fun r => (split_authors r.Author).map (fun n => (r.ISBN10, n)))

/-- The (Isbn, Title) projection of the surviving rows, before the `Isbn`
deduplication. -/
def bookPairs (rows : List BookRow) : List (List Char × List Char) :=
  (survivors rows).map (fun r => (r.ISBN10, r.Title))

/-- Index of the first occurrence of `k` (length of the list when absent). -/
def idxOf {κ : Type} [DecidableEq κ] (k : κ) : List κ → Nat
  | [] => 0
  | a :: l => if a = k then 0 else idxOf k l + 1

/-- Attach consecutive integer ids starting at `i`. -/
def withIds {α : Type} (i : Nat) : List α → List (Nat × α)
  | [] => []
  | a :: l => (i, a) :: withIds (i + 1) l

/-- Keys of the distinct authors, in order of first appearance. -/
def keysOf (ns : List (List Char)) : List (List Char) :=
  (dedupBy lowerKey [] ns).map lowerKey

/-- Contents of the `author_name_to_id` dict after processing the name list
`ns`, expressed as a lookup function: the id of a seen key is one plus its
index among the distinct keys in order of first appearance. -/
def rankOpt (ns : List (List Char)) (k : List Char) : Option Nat :=
  if k ∈ keysOf ns then some (idxOf k (keysOf ns) + 1) else none

/-- Every whitespace character of the list is a plain space. -/
def wsOnlySpace (l : List Char) : Bool :=
  l.all (fun c => !isPyWhite c || c == ' ')

/-- No two adjacent characters are both whitespace. -/
def noAdjWS : List Char → Bool
  | [] => true
  | [_] => true
  | a :: b :: l => (!(isPyWhite a && isPyWhite b)) && noAdjWS (b :: l)

/-- The first character, when present, is not whitespace. -/
def noLeadWS : List Char → Bool
  | [] => true
  | c :: _ => !isPyWhite c

/-- The last character, when present, is not whitespace. -/
def noTrailWS : List Char → Bool
  | [] => true
  | [c] => !isPyWhite c
  | _ :: b :: l => noTrailWS (b :: l)

/-- Apostrophe character (used by the spec's mixed-case example). -/
def apos : Char := Char.ofNat 39

/-- The spec's mixed-case example string for `title_case`. -/
def mcdFarm : List Char :=
  ['M', 'c', 'D', 'o', 'n', 'a', 'l', 'd', apos, 's', ' ', 'F', 'a', 'r', 'm']

/-- The spec's deduplication example field for `split_authors`. -/
def c4Field : List Char := "Jane Doe; jane doe, JANE DOE".toList

/-- The borrower row of the spec's composition example (id and phone are not
fixed by the claim; concrete values are supplied). -/
def c1Row : BorrowerRow :=
  ⟨"ID1".toList, "jane".toList, "DOE".toList, "1 Main St".toList,
    "Springfield".toList, "IL".toList, "555".toList, "123-45-6789".toList⟩

/-- A borrower row whose ssn contains a non-digit character. -/
def c3Row : BorrowerRow :=
  ⟨"ID2".toList, "Al".toList, "Jones".toList, "2 Oak St".toList,
    "Metropolis".toList, "NY".toList, "556".toList, "12a-45".toList⟩

/-- Two book rows with distinct ISBNs and overlapping authors. -/
def exBooksA : List BookRow :=
  [⟨"111".toList, "T1".toList, "Jane Doe and John Smith".toList⟩,
   ⟨"222".toList, "T2".toList, "JANE DOE".toList⟩]

/-- Two book rows with the same ISBN10 and the same author in two casings. -/
def exBooksOverlap : List BookRow :=
  [⟨"111".toList, "T1".toList, "Jane Doe".toList⟩,
   ⟨"111".toList, "T2".toList, "JANE DOE".toList⟩]

/-- A book row with a whitespace-only ISBN10, followed by a keyed row. -/
def exBooksBlank : List BookRow :=
  [⟨"  ".toList, "T".toList, "A B".toList⟩,
   ⟨"333".toList, "T3".toList, "Ann Lee".toList⟩]

/-- Two book rows sharing one ISBN10 with different titles. -/
def exBooksDupIsbn : List BookRow :=
  [⟨"111".toList, "T1".toList, "Ann Lee".toList⟩,
   ⟨"111".toList, "T2".toList, "Bob Roe".toList⟩]

/-- Two borrower rows sharing one id with different addresses. -/
def exBorrowersDup : List BorrowerRow :=
  [⟨"ID9".toList, "Ann".toList, "Lee".toList, "3 Elm St".toList,
    "Gotham".toList, "NJ".toList, "557".toList, "111-22-3333".toList⟩,
   ⟨"ID9".toList, "Ann".toList, "Lee".toList, "4 Ash St".toList,
    "Gotham".toList, "NJ".toList, "558".toList, "111-22-3333".toList⟩]

section DedupLemmas

variable {α κ : Type} [DecidableEq κ] (key : α → κ)

theorem dedupBy_sublist (seen : List κ) (l : List α) :
    (dedupBy key seen l).Sublist l := by
  induction l generalizing seen with
  | nil => simp [dedupBy]
  | cons a l ih =>
    simp only [dedupBy]
    split
    · exact (ih seen).cons a
    · exact (ih _).cons₂ a

theorem key_not_seen_of_mem_dedupBy (seen : List κ) (l : List α) (a : α)
    (ha : a ∈ dedupBy key seen l) : key a ∉ seen := by
  induction l generalizing seen with
  | nil => simp [dedupBy] at ha
  | cons x l ih =>
    simp only [dedupBy] at ha
    split at ha
    · exact ih seen ha
    · rcases List.mem_cons.mp ha with rfl | h
      · assumption
      · have := ih (key x :: seen) h
        exact fun hs => this (List.mem_cons_of_mem _ hs)

theorem nodup_map_key_dedupBy (seen : List κ) (l : List α) :
    ((dedupBy key seen l).map key).Nodup := by
  induction l generalizing seen with
  | nil => simp [dedupBy]
  | cons a l ih =>
    simp only [dedupBy]
    split
    · exact ih seen
    · refine List.nodup_cons.mpr ⟨?_, ih _⟩
      intro hmem
      rcases List.mem_map.mp hmem with ⟨b, hb, hkb⟩
      have := key_not_seen_of_mem_dedupBy key _ _ _ hb
      exact this (hkb ▸ List.mem_cons_self _ _)

theorem exists_mem_dedupBy (seen : List κ) (l : List α) (a : α)
    (hal : a ∈ l) (hns : key a ∉ seen) :
    ∃ b ∈ dedupBy key seen l, key b = key a := by
  induction l generalizing seen with
  | nil => simp at hal
  | cons x l ih =>
    simp only [dedupBy]
    rcases List.mem_cons.mp hal with rfl | h
    · split
      · next hx => exact absurd hx hns
      · exact ⟨a, List.mem_cons_self _ _, rfl⟩
    · split
      · next hx => exact ih seen h hns
      · next hx =>
        by_cases hk : key a = key x
        · exact ⟨x, List.mem_cons_self _ _, hk.symm⟩
        · rcases ih (key x :: seen) h (by
            intro hmem
            rcases List.mem_cons.mp hmem with h1 | h2
            · exact hk h1
            · exact hns h2) with ⟨b, hb, hkb⟩
          exact ⟨b, List.mem_cons_of_mem _ hb, hkb⟩

theorem head_filter_of_mem_dedupBy (seen : List κ) (l : List α) (b : α)
    (hb : b ∈ dedupBy key seen l) :
    (l.filter (fun x => decide (key x = key b))).head? = some b := by
  induction l generalizing seen with
  | nil => simp [dedupBy] at hb
  | cons x l ih =>
    simp only [dedupBy] at hb
    split at hb
    · next hx =>
      have hkb : key b ∉ seen := key_not_seen_of_mem_dedupBy key _ _ _ hb
      have hne : ¬ (key x = key b) := fun h => hkb (h ▸ hx)
      simp only [List.filter_cons, decide_eq_true_eq]
      rw [if_neg hne]
      exact ih seen hb
    · next hx =>
      rcases List.mem_cons.mp hb with rfl | h
      · simp [List.filter_cons]
      · have hkb : key b ∉ key x :: seen :=
          key_not_seen_of_mem_dedupBy key _ _ _ h
        have hne : ¬ (key x = key b) := by
          intro hk
          exact hkb (hk ▸ List.mem_cons_self _ _)
        simp only [List.filter_cons, decide_eq_true_eq]
        rw [if_neg hne]
        exact ih (key x :: seen) h

theorem dedupBy_cons_mem (seen : List κ) (l : List α) (x : α)
    (hx : key x ∈ seen) : dedupBy key seen (x :: l) = dedupBy key seen l := by
  simp [dedupBy, hx]

theorem dedupBy_cons_not_mem (seen : List κ) (l : List α) (x : α)
    (hx : key x ∉ seen) :
    dedupBy key seen (x :: l) = x :: dedupBy key (key x :: seen) l := by
  simp [dedupBy, hx]

theorem dedupBy_append_singleton (seen : List κ) (l : List α) (a : α) :
    dedupBy key seen (l ++ [a]) =
      dedupBy key seen l ++
        (if key a ∈ seen ∨ key a ∈ (dedupBy key seen l).map key
         then [] else [a]) := by
  induction l generalizing seen with
  | nil =>
    by_cases h : key a ∈ seen <;> simp [h, dedupBy]
  | cons x l ih =>
    by_cases hx : key x ∈ seen
    · rw [List.cons_append, dedupBy_cons_mem key seen _ x hx,
        dedupBy_cons_mem key seen l x hx, ih seen]
    · rw [List.cons_append, dedupBy_cons_not_mem key seen _ x hx,
        dedupBy_cons_not_mem key seen l x hx, ih (key x :: seen)]
      have hiff :
          (key a ∈ key x :: seen ∨
            key a ∈ (dedupBy key (key x :: seen) l).map key) ↔
          (key a ∈ seen ∨
            key a ∈ (x :: dedupBy key (key x :: seen) l).map key) := by
        simp only [List.mem_cons, List.map_cons]
        tauto
      rw [List.cons_append, if_congr hiff rfl rfl]

end DedupLemmas

section IdxLemmas

variable {κ : Type} [DecidableEq κ]

theorem idxOf_append_left (k : κ) (l t : List κ) (h : k ∈ l) :
    idxOf k (l ++ t) = idxOf k l := by
  induction l with
  | nil => simp at h
  | cons a l ih =>
    simp only [List.cons_append, idxOf]
    by_cases ha : a = k
    · simp [ha]
    · rcases List.mem_cons.mp h with rfl | hl
      · exact absurd rfl ha
      · simp [ha, ih hl]

theorem idxOf_append_self (k : κ) (l : List κ) (h : k ∉ l) :
    idxOf k (l ++ [k]) = l.length := by
  induction l with
  | nil => simp [idxOf]
  | cons a l ih =>
    have ha : ¬ (a = k) := fun hh => h (hh ▸ List.mem_cons_self _ _)
    have ih2 := ih (fun hl => h (List.mem_cons_of_mem _ hl))
    show (if a = k then 0 else idxOf k (l ++ [k]) + 1) = (a :: l).length
    rw [if_neg ha, ih2]
    rfl

theorem idxOf_lt_length (k : κ) (l : List κ) (h : k ∈ l) :
    idxOf k l < l.length := by
  induction l with
  | nil => simp at h
  | cons a l ih =>
    simp only [idxOf, List.length_cons]
    by_cases ha : a = k
    · simp [ha]
    · rcases List.mem_cons.mp h with rfl | hl
      · exact absurd rfl ha
      · simpa [ha] using ih hl

end IdxLemmas

section WithIdsLemmas

variable {α : Type}

theorem withIds_length (i : Nat) (l : List α) :
    (withIds i l).length = l.length := by
  induction l generalizing i with
  | nil => rfl
  | cons a l ih => simp [withIds, ih]

theorem withIds_map_fst (i : Nat) (l : List α) :
    (withIds i l).map Prod.fst = List.range' i l.length := by
  induction l generalizing i with
  | nil => rfl
  | cons a l ih => simp [withIds, List.range', ih]

theorem withIds_map_snd (i : Nat) (l : List α) :
    (withIds i l).map Prod.snd = l := by
  induction l generalizing i with
  | nil => rfl
  | cons a l ih => simp [withIds, ih]

theorem withIds_append_singleton (i : Nat) (l : List α) (a : α) :
    withIds i (l ++ [a]) = withIds i l ++ [(i + l.length, a)] := by
  induction l generalizing i with
  | nil => simp [withIds]
  | cons x l ih =>
    show (i, x) :: withIds (i + 1) (l ++ [a])
        = (i, x) :: (withIds (i + 1) l ++ [(i + (l.length + 1), a)])
    rw [ih (i + 1)]
    have : i + 1 + l.length = i + (l.length + 1) := by omega
    rw [this]

theorem fst_bounds_of_mem_withIds (i : Nat) (l : List α) (p : Nat × α)
    (hp : p ∈ withIds i l) : i ≤ p.1 ∧ p.1 < i + l.length := by
  induction l generalizing i with
  | nil => simp [withIds] at hp
  | cons a l ih =>
    simp only [withIds, List.mem_cons] at hp
    rcases hp with rfl | h
    · simp
    · have := ih (i + 1) h
      constructor <;> [omega; (simp only [List.length_cons]; omega)]

theorem snd_mem_of_mem_withIds (i : Nat) (l : List α) (p : Nat × α)
    (hp : p ∈ withIds i l) : p.2 ∈ l := by
  induction l generalizing i with
  | nil => simp [withIds] at hp
  | cons a l ih =>
    simp only [withIds, List.mem_cons] at hp
    rcases hp with rfl | h
    · simp
    · exact List.mem_cons_of_mem _ (ih (i + 1) h)

theorem exists_mem_withIds (i : Nat) (l : List α) (b : α) (hb : b ∈ l) :
    ∃ p ∈ withIds i l, p.2 = b := by
  induction l generalizing i with
  | nil => simp at hb
  | cons a l ih =>
    rcases List.mem_cons.mp hb with rfl | h
    · exact ⟨(i, b), List.mem_cons_self _ _, rfl⟩
    · rcases ih (i + 1) h with ⟨p, hp, hps⟩
      exact ⟨p, List.mem_cons_of_mem _ hp, hps⟩

theorem mem_map_fst_withIds (i : Nat) (l : List α) (j : Nat)
    (h1 : i ≤ j) (h2 : j < i + l.length) :
    j ∈ (withIds i l).map Prod.fst := by
  induction l generalizing i with
  | nil => simp at h2; omega
  | cons a l ih =>
    simp only [withIds, List.map_cons, List.mem_cons]
    by_cases hj : j = i
    · exact Or.inl hj
    · refine Or.inr (ih (i + 1) (by omega) ?_)
      simp only [List.length_cons] at h2
      omega

theorem sorted_withIds (i : Nat) (l : List α) :
    List.Sorted (fun a b : Nat × α => a.1 ≤ b.1) (withIds i l) := by
  induction l generalizing i with
  | nil => simp [withIds]
  | cons a l ih =>
    simp only [withIds]
    refine List.sorted_cons.mpr ⟨?_, ih (i + 1)⟩
    intro b hb
    have := fst_bounds_of_mem_withIds (i + 1) l b hb
    omega

end WithIdsLemmas

section NormWSLemmas

theorem noAdjWS_tail (c : Char) (l : List Char)
    (h : noAdjWS (c :: l) = true) : noAdjWS l = true := by
  cases l with
  | nil => rfl
  | cons b l => exact (Bool.and_eq_true_iff.mp h).2

theorem noAdjWS_cons_of (c : Char) (l : List Char)
    (hl : noAdjWS l = true)
    (hc : isPyWhite c = false ∨ noLeadWS l = true) :
    noAdjWS (c :: l) = true := by
  cases l with
  | nil => rfl
  | cons b l =>
    refine Bool.and_eq_true_iff.mpr ⟨?_, hl⟩
    rcases hc with hc | hc
    · simp [hc]
    · simp only [noLeadWS, Bool.not_eq_true'] at hc
      simp [hc]

theorem wsOnlySpace_collapseWS (pw : Bool) (l : List Char) :
    wsOnlySpace (collapseWS pw l) = true := by
  induction l generalizing pw with
  | nil => rfl
  | cons c l ih =>
    by_cases hc : isPyWhite c = true
    · cases pw with
      | true => simpa [collapseWS, hc] using ih true
      | false =>
        simp only [collapseWS, hc, if_true, Bool.false_eq_true, if_false]
        have := ih true
        simp only [wsOnlySpace, List.all_cons] at this ⊢
        simp [this]
    · simp only [collapseWS, hc, Bool.false_eq_true, if_false]
      have := ih false
      simp only [wsOnlySpace, List.all_cons] at this ⊢
      simp [this, hc]

theorem noLeadWS_collapseWS_true (l : List Char) :
    noLeadWS (collapseWS true l) = true := by
  induction l with
  | nil => rfl
  | cons c l ih =>
    by_cases hc : isPyWhite c = true
    · simpa [collapseWS, hc] using ih
    · simp [collapseWS, hc, noLeadWS]

theorem noAdjWS_collapseWS (pw : Bool) (l : List Char) :
    noAdjWS (collapseWS pw l) = true := by
  induction l generalizing pw with
  | nil => rfl
  | cons c l ih =>
    by_cases hc : isPyWhite c = true
    · cases pw with
      | true => simpa [collapseWS, hc] using ih true
      | false =>
        simp only [collapseWS, hc, if_true, Bool.false_eq_true, if_false]
        exact noAdjWS_cons_of _ _ (ih true)
          (Or.inr (noLeadWS_collapseWS_true l))
    · simp only [collapseWS, hc, Bool.false_eq_true, if_false]
      exact noAdjWS_cons_of _ _ (ih false) (Or.inl (by simpa using hc))

theorem collapseWS_eq_self (l : List Char)
    (hsp : wsOnlySpace l = true) (hadj : noAdjWS l = true) :
    collapseWS false l = l ∧
      (noLeadWS l = true → collapseWS true l = l) := by
  induction l with
  | nil => exact ⟨rfl, fun _ => rfl⟩
  | cons c l ih =>
    have hsp' : wsOnlySpace l = true := by
      simp only [wsOnlySpace, List.all_cons, Bool.and_eq_true] at hsp
      exact hsp.2
    have hspc := by
      simp only [wsOnlySpace, List.all_cons, Bool.and_eq_true] at hsp
      exact hsp.1
    have hadj' : noAdjWS l = true := noAdjWS_tail c l hadj
    rcases ih hsp' hadj' with ⟨ihf, iht⟩
    by_cases hc : isPyWhite c = true
    · have hcsp : c = ' ' := by
        simp only [hc, Bool.not_true, Bool.false_or, beq_iff_eq] at hspc
        exact hspc
      have hlead : noLeadWS l = true := by
        cases l with
        | nil => rfl
        | cons b l =>
          simp only [noAdjWS, Bool.and_eq_true, Bool.not_eq_true',
            Bool.and_eq_false_iff] at hadj
          rcases hadj.1 with h | h
          · rw [h] at hc; exact absurd hc (by simp)
          · simp [noLeadWS, h]
      constructor
      · simp only [collapseWS, hc, if_true]
        rw [iht hlead, hcsp]
        simp
      · intro hnl
        simp only [noLeadWS, hc, Bool.not_true] at hnl
        cases hnl
    · constructor
      · simp [collapseWS, hc, ihf]
      · intro _
        simp [collapseWS, hc, ihf]

theorem all_of_dropTrailWhile (p q : Char → Bool) (l : List Char)
    (h : l.all q = true) : (dropTrailWhile p l).all q = true := by
  induction l with
  | nil => rfl
  | cons c l ih =>
    simp only [List.all_cons, Bool.and_eq_true] at h
    simp only [dropTrailWhile]
    split
    · split
      · rfl
      · simp [h.1]
    · simp only [List.all_cons, Bool.and_eq_true]
      exact ⟨h.1, ih h.2⟩

theorem head_dropTrailWhile (p : Char → Bool) (l : List Char)
    (d : Char) (r : List Char) (h : dropTrailWhile p l = d :: r) :
    ∃ t, l = d :: t := by
  cases l with
  | nil => simp [dropTrailWhile] at h
  | cons c l =>
    simp only [dropTrailWhile] at h
    split at h
    · split at h
      · cases h
      · rcases h with ⟨rfl, rfl⟩
        exact ⟨l, rfl⟩
    · rcases h with ⟨rfl, rfl⟩
      exact ⟨l, rfl⟩

theorem noLeadWS_dropTrailWhile (p : Char → Bool) (l : List Char)
    (h : noLeadWS l = true) : noLeadWS (dropTrailWhile p l) = true := by
  cases hd : dropTrailWhile p l with
  | nil => rfl
  | cons d r =>
    rcases head_dropTrailWhile p l d r hd with ⟨t, rfl⟩
    simpa [noLeadWS] using h

theorem noAdjWS_dropTrailWhile (p : Char → Bool) (l : List Char)
    (h : noAdjWS l = true) : noAdjWS (dropTrailWhile p l) = true := by
  induction l with
  | nil => rfl
  | cons c l ih =>
    have h' := noAdjWS_tail c l h
    simp only [dropTrailWhile]
    split
    · split
      · rfl
      · rfl
    · next hr =>
      cases hd : dropTrailWhile p l with
      | nil => rw [hd] at hr; simp at hr
      | cons d r =>
        rcases head_dropTrailWhile p l d r hd with ⟨t, hlt⟩
        have hadj2 := ih h'
        rw [hd] at hadj2
        refine noAdjWS_cons_of c (d :: r) hadj2 ?_
        subst hlt
        simp only [noAdjWS, Bool.and_eq_true, Bool.not_eq_true',
          Bool.and_eq_false_iff] at h
        rcases h.1 with hcw | hdw
        · exact Or.inl hcw
        · exact Or.inr (by simp [noLeadWS, hdw])

theorem noTrailWS_dropTrailWhile (l : List Char) :
    noTrailWS (dropTrailWhile isPyWhite l) = true := by
  induction l with
  | nil => rfl
  | cons c l ih =>
    simp only [dropTrailWhile]
    split
    · split
      · rfl
      · next hpc => simp [noTrailWS, hpc]
    · next hr =>
      cases hd : dropTrailWhile isPyWhite l with
      | nil => rw [hd] at hr; simp at hr
      | cons d r =>
        rw [hd] at ih
        simpa [noTrailWS] using ih

theorem dropTrailWhile_eq_self (l : List Char)
    (h : noTrailWS l = true) : dropTrailWhile isPyWhite l = l := by
  induction l with
  | nil => rfl
  | cons c l ih =>
    cases l with
    | nil =>
      simp only [noTrailWS, Bool.not_eq_true'] at h
      simp [dropTrailWhile, h]
    | cons b t =>
      have h2 := ih h
      show (if (dropTrailWhile isPyWhite (b :: t)).isEmpty
          then if isPyWhite c = true then [] else [c]
          else c :: dropTrailWhile isPyWhite (b :: t)) = c :: b :: t
      rw [h2]
      simp

theorem dropWhile_eq_self_of_noLead (l : List Char)
    (h : noLeadWS l = true) : l.dropWhile isPyWhite = l := by
  cases l with
  | nil => rfl
  | cons c l =>
    simp only [noLeadWS, Bool.not_eq_true'] at h
    simp [List.dropWhile_cons, h]

theorem all_of_dropWhile (p q : Char → Bool) (l : List Char)
    (h : l.all q = true) : (l.dropWhile p).all q = true := by
  induction l with
  | nil => rfl
  | cons c l ih =>
    simp only [List.all_cons, Bool.and_eq_true] at h
    simp only [List.dropWhile_cons]
    split
    · exact ih h.2
    · simp only [List.all_cons, Bool.and_eq_true]
      exact ⟨h.1, h.2⟩

theorem noAdjWS_dropWhile (l : List Char)
    (h : noAdjWS l = true) : noAdjWS (l.dropWhile isPyWhite) = true := by
  induction l with
  | nil => rfl
  | cons c l ih =>
    simp only [List.dropWhile_cons]
    split
    · exact ih (noAdjWS_tail c l h)
    · exact h

theorem noLeadWS_dropWhile (l : List Char) :
    noLeadWS (l.dropWhile isPyWhite) = true := by
  induction l with
  | nil => rfl
  | cons c l ih =>
    simp only [List.dropWhile_cons]
    split
    · exact ih
    · next hc => simp [noLeadWS, hc]

theorem normWS_canonical (l : List Char) :
    wsOnlySpace (normWS l) = true ∧ noAdjWS (normWS l) = true ∧
      noLeadWS (normWS l) = true ∧ noTrailWS (normWS l) = true := by
  unfold normWS stripEnds
  refine ⟨?_, ?_, ?_, ?_⟩
  · exact all_of_dropTrailWhile _ _ _
      (all_of_dropWhile _ _ _ (wsOnlySpace_collapseWS false l))
  · exact noAdjWS_dropTrailWhile _ _
      (noAdjWS_dropWhile _ (noAdjWS_collapseWS false l))
  · exact noLeadWS_dropTrailWhile _ _ (noLeadWS_dropWhile _)
  · exact noTrailWS_dropTrailWhile _

theorem normWS_eq_self_of_canonical (l : List Char)
    (h1 : wsOnlySpace l = true) (h2 : noAdjWS l = true)
    (h3 : noLeadWS l = true) (h4 : noTrailWS l = true) :
    normWS l = l := by
  unfold normWS stripEnds
  rw [(collapseWS_eq_self l h1 h2).1, dropWhile_eq_self_of_noLead l h3,
    dropTrailWhile_eq_self l h4]

theorem normWS_idem (l : List Char) : normWS (normWS l) = normWS l := by
  rcases normWS_canonical l with ⟨h1, h2, h3, h4⟩
  exact normWS_eq_self_of_canonical _ h1 h2 h3 h4

end NormWSLemmas

section BlankFieldLemmas

theorem collapseWS_true_all_ws (l : List Char)
    (h : ∀ c ∈ l, isPyWhite c = true) : collapseWS true l = [] := by
  induction l with
  | nil => rfl
  | cons c l ih =>
    have hc := h c (List.mem_cons_self _ _)
    simp only [collapseWS, hc, if_true]
    exact ih (fun d hd => h d (List.mem_cons_of_mem _ hd))

theorem normWS_all_ws (l : List Char)
    (h : ∀ c ∈ l, isPyWhite c = true) : normWS l = [] := by
  cases l with
  | nil => rfl
  | cons c l =>
    have hc := h c (List.mem_cons_self _ _)
    have : collapseWS false (c :: l) = [' '] := by
      simp only [collapseWS, hc, if_true, Bool.false_eq_true, if_false]
      rw [collapseWS_true_all_ws l (fun d hd => h d (List.mem_cons_of_mem _ hd))]
    unfold normWS
    rw [this]
    decide

theorem all_of_dropTrailWhile_eq_nil (p : Char → Bool) (l : List Char)
    (h : dropTrailWhile p l = []) : ∀ c ∈ l, p c = true := by
  induction l with
  | nil => simp
  | cons c l ih =>
    simp only [dropTrailWhile] at h
    split at h
    · next hr =>
      split at h
      · next hpc =>
        intro d hd
        rcases List.mem_cons.mp hd with rfl | hdl
        · exact hpc
        · exact ih (List.isEmpty_iff.mp hr) d hdl
      · cases h
    · cases h

theorem all_ws_of_stripEnds_nil (l : List Char)
    (h : stripEnds isPyWhite l = []) : ∀ c ∈ l, isPyWhite c = true := by
  unfold stripEnds at h
  have hdrop := all_of_dropTrailWhile_eq_nil _ _ h
  intro c hc
  have hsplit := List.takeWhile_append_dropWhile isPyWhite l
  rw [← hsplit] at hc
  rcases List.mem_append.mp hc with htk | hdr
  · exact List.mem_takeWhile_imp htk
  · exact hdrop c hdr

theorem subAndFuel_all_ws (fuel : Nat) (l : List Char)
    (h : ∀ c ∈ l, isPyWhite c = true) : subAndFuel fuel l = l := by
  induction fuel generalizing l with
  | zero => rfl
  | succ fuel ih =>
    cases l with
    | nil => rfl
    | cons c rest =>
      have hc := h c (List.mem_cons_self _ _)
      have hmatch : tryMatchAnd (c :: rest) = none := by
        unfold tryMatchAnd
        rw [List.dropWhile_eq_nil_iff.mpr h]
      simp only [subAndFuel, hc, if_true, hmatch]
      rw [ih rest (fun d hd => h d (List.mem_cons_of_mem _ hd))]

theorem map_ampToComma_all_ws (l : List Char)
    (h : ∀ c ∈ l, isPyWhite c = true) : l.map ampToComma = l := by
  induction l with
  | nil => rfl
  | cons c l ih =>
    have hc := h c (List.mem_cons_self _ _)
    have hamp : ampToComma c = c := by
      simp only [isPyWhite, Bool.or_eq_true, beq_iff_eq] at hc
      rcases hc with ((((h1 | h1) | h1) | h1) | h1) | h1 <;> subst h1 <;> decide
    simp only [List.map_cons, hamp]
    rw [ih (fun d hd => h d (List.mem_cons_of_mem _ hd))]

theorem splitSeps_no_sep (l : List Char)
    (h : ∀ c ∈ l, isSepChar c = false) : splitSeps l = [l] := by
  induction l with
  | nil => rfl
  | cons c l ih =>
    have hc := h c (List.mem_cons_self _ _)
    simp only [splitSeps, hc, Bool.false_eq_true, if_false]
    rw [ih (fun d hd => h d (List.mem_cons_of_mem _ hd))]

theorem sep_false_of_ws (c : Char) (hc : isPyWhite c = true) :
    isSepChar c = false := by
  simp only [isPyWhite, Bool.or_eq_true, beq_iff_eq] at hc
  rcases hc with ((((h1 | h1) | h1) | h1) | h1) | h1 <;> subst h1 <;> decide

theorem split_authors_eq_dedup (field : List Char) :
    split_authors field = dedupBy lowerKey [] (rawNames field) := by
  unfold split_authors
  split
  · next hblank =>
    have hws : ∀ c ∈ field, isPyWhite c = true :=
      all_ws_of_stripEnds_nil field (List.isEmpty_iff.mp hblank)
    have hraw : rawNames field = [] := by
      unfold rawNames subAnd
      rw [subAndFuel_all_ws _ _ hws, map_ampToComma_all_ws _ hws,
        splitSeps_no_sep _ (fun c hc => sep_false_of_ws c (hws c hc))]
      simp [normWS_all_ws field hws]
    rw [hraw]
    rfl
  · rfl

end BlankFieldLemmas

section KeysLemmas

theorem keysOf_append_singleton (ns : List (List Char)) (n : List Char) :
    keysOf (ns ++ [n]) =
      keysOf ns ++
        (if lowerKey n ∈ keysOf ns then [] else [lowerKey n]) := by
  unfold keysOf
  rw [dedupBy_append_singleton, List.map_append]
  congr 1
  by_cases h : lowerKey n ∈ (dedupBy lowerKey [] ns).map lowerKey
  · rw [if_pos (Or.inr h), if_pos h]
    rfl
  · rw [if_neg (by simp [h]), if_neg h]
    rfl

theorem dedup_append_mem (ns : List (List Char)) (n : List Char)
    (h : lowerKey n ∈ keysOf ns) :
    dedupBy lowerKey [] (ns ++ [n]) = dedupBy lowerKey [] ns := by
  rw [dedupBy_append_singleton,
    if_pos (Or.inr
      (show lowerKey n ∈ (dedupBy lowerKey [] ns).map lowerKey from h))]
  simp

theorem dedup_append_not_mem (ns : List (List Char)) (n : List Char)
    (h : lowerKey n ∉ keysOf ns) :
    dedupBy lowerKey [] (ns ++ [n]) = dedupBy lowerKey [] ns ++ [n] := by
  rw [dedupBy_append_singleton, if_neg ?_]
  intro hor
  rcases hor with h0 | h0
  · simp at h0
  · exact h h0

theorem keysOf_append_exists (ms ns : List (List Char)) :
    ∃ ext, keysOf (ns ++ ms) = keysOf ns ++ ext := by
  induction ms generalizing ns with
  | nil => exact ⟨[], by simp⟩
  | cons m ms ih =>
    rw [List.append_cons]
    rcases ih (ns ++ [m]) with ⟨e, he⟩
    rw [he, keysOf_append_singleton]
    exact ⟨_, List.append_assoc _ _ _⟩

theorem idxOf_keysOf_stable (k : List Char) (ns ms : List (List Char))
    (h : k ∈ keysOf ns) :
    idxOf k (keysOf (ns ++ ms)) = idxOf k (keysOf ns) := by
  rcases keysOf_append_exists ms ns with ⟨e, he⟩
  rw [he, idxOf_append_left _ _ _ h]

theorem mem_keysOf_append (k : List Char) (ns ms : List (List Char))
    (h : k ∈ keysOf ns) : k ∈ keysOf (ns ++ ms) := by
  rcases keysOf_append_exists ms ns with ⟨e, he⟩
  rw [he]
  exact List.mem_append_left _ h

end KeysLemmas

section AuthorLoop

theorem rankOpt_congr (ns ms : List (List Char)) (k : List Char)
    (h : keysOf ns = keysOf ms) : rankOpt ns k = rankOpt ms k := by
  unfold rankOpt
  rw [h]

theorem foldl_rowStep_eq_pairs (bdf : List BookRow) (st : BAState) :
    bdf.foldl rowStep st =
      (bdf.flatMap
        (fun r => (split_authors r.Author).map (fun n => (r.ISBN10, n)))).foldl
        pairStep st := by
  induction bdf generalizing st with
  | nil => rfl
  | cons r bdf ih =>
    show bdf.foldl rowStep (rowStep st r) = _
    rw [ih (rowStep st r)]
    have hflat : ((r :: bdf).flatMap
        (fun r => (split_authors r.Author).map (fun n => (r.ISBN10, n))))
        = (split_authors r.Author).map (fun n => (r.ISBN10, n)) ++
          bdf.flatMap
            (fun r => (split_authors r.Author).map (fun n => (r.ISBN10, n))) := by
      simp [List.flatMap_cons]
    rw [hflat, List.foldl_append]
    congr 1
    show (split_authors r.Author).foldl (nameStep r.ISBN10) st = _
    rw [List.foldl_map]
    rfl

theorem authorLoop_invariant (ps : List (List Char × List Char)) :
    ∀ (done : List (List Char × List Char)) (st : BAState),
    (∀ k, assocLookup k st.m = rankOpt (done.map Prod.snd) k) →
    st.m.length = (keysOf (done.map Prod.snd)).length →
    st.arows = withIds 1 (dedupBy lowerKey [] (done.map Prod.snd)) →
    st.brows = done.map (fun q => (q.1,
      idxOf (lowerKey q.2) (keysOf ((done ++ ps).map Prod.snd)) + 1)) →
    (∀ k, assocLookup k (ps.foldl pairStep st).m
        = rankOpt ((done ++ ps).map Prod.snd) k)
    ∧ (ps.foldl pairStep st).m.length
        = (keysOf ((done ++ ps).map Prod.snd)).length
    ∧ (ps.foldl pairStep st).arows
        = withIds 1 (dedupBy lowerKey [] ((done ++ ps).map Prod.snd))
    ∧ (ps.foldl pairStep st).brows = (done ++ ps).map (fun q => (q.1,
        idxOf (lowerKey q.2) (keysOf ((done ++ ps).map Prod.snd)) + 1)) := by
  induction ps with
  | nil =>
    intro done st h1 h2 h3 h4
    simp only [List.foldl_nil, List.append_nil] at h4 ⊢
    exact ⟨h1, h2, h3, h4⟩
  | cons p ps ih =>
    intro done st h1 h2 h3 h4
    rw [List.append_cons] at h4 ⊢
    simp only [List.foldl_cons]
    have hns : (done ++ [p]).map Prod.snd = done.map Prod.snd ++ [p.2] := by
      rw [List.map_append]
      rfl
    have hns2 : ((done ++ [p]) ++ ps).map Prod.snd
        = (done.map Prod.snd ++ [p.2]) ++ ps.map Prod.snd := by
      rw [List.map_append, hns]
    have hlook := h1 (lowerKey p.2)
    by_cases hk : lowerKey p.2 ∈ keysOf (done.map Prod.snd)
    · -- the author was already registered
      rw [show rankOpt (done.map Prod.snd) (lowerKey p.2)
          = some (idxOf (lowerKey p.2) (keysOf (done.map Prod.snd)) + 1) from by
        unfold rankOpt; rw [if_pos hk]] at hlook
      have hst1 : pairStep st p =
          ⟨st.m, st.arows, st.brows ++
            [(p.1, idxOf (lowerKey p.2) (keysOf (done.map Prod.snd)) + 1)]⟩ := by
        simp only [pairStep, nameStep, hlook]
      have hK : keysOf (done.map Prod.snd ++ [p.2])
          = keysOf (done.map Prod.snd) := by
        rw [keysOf_append_singleton, if_pos hk, List.append_nil]
      have hidx : idxOf (lowerKey p.2)
            (keysOf (((done ++ [p]) ++ ps).map Prod.snd))
          = idxOf (lowerKey p.2) (keysOf (done.map Prod.snd)) := by
        rw [hns2, List.append_assoc]
        exact idxOf_keysOf_stable _ _ _ hk
      refine ih (done ++ [p]) (pairStep st p) ?_ ?_ ?_ ?_
      · intro k'
        rw [hst1]
        show assocLookup k' st.m = _
        rw [rankOpt_congr ((done ++ [p]).map Prod.snd) (done.map Prod.snd) k'
          (by rw [hns, hK])]
        exact h1 k'
      · rw [hst1]
        show st.m.length = _
        rw [hns, hK]
        exact h2
      · rw [hst1]
        show st.arows = _
        rw [hns, dedup_append_mem _ _ hk]
        exact h3
      · rw [hst1]
        show st.brows ++ _ = _
        rw [List.map_append (fun q : List Char × List Char => (q.1,
          idxOf (lowerKey q.2)
            (keysOf (((done ++ [p]) ++ ps).map Prod.snd)) + 1)) done [p],
          h4]
        congr 1
        simp only [List.map_cons, List.map_nil]
        rw [hidx]
    · -- a fresh author id is assigned
      rw [show rankOpt (done.map Prod.snd) (lowerKey p.2) = none from by
        unfold rankOpt; rw [if_neg hk]] at hlook
      have hst1 : pairStep st p =
          ⟨(lowerKey p.2, st.m.length + 1) :: st.m,
            st.arows ++ [(st.m.length + 1, p.2)],
            st.brows ++ [(p.1, st.m.length + 1)]⟩ := by
        simp only [pairStep, nameStep, hlook]
      have hK : keysOf (done.map Prod.snd ++ [p.2])
          = keysOf (done.map Prod.snd) ++ [lowerKey p.2] := by
        rw [keysOf_append_singleton, if_neg hk]
      have hD : dedupBy lowerKey [] (done.map Prod.snd ++ [p.2])
          = dedupBy lowerKey [] (done.map Prod.snd) ++ [p.2] :=
        dedup_append_not_mem _ _ hk
      have hkmem : lowerKey p.2 ∈ keysOf (done.map Prod.snd ++ [p.2]) := by
        rw [hK]
        exact List.mem_append_right _ (List.mem_cons_self _ _)
      have hidx_self : idxOf (lowerKey p.2) (keysOf (done.map Prod.snd ++ [p.2]))
          = (keysOf (done.map Prod.snd)).length := by
        rw [hK]
        exact idxOf_append_self _ _ hk
      have hidx : idxOf (lowerKey p.2)
            (keysOf (((done ++ [p]) ++ ps).map Prod.snd))
          = (keysOf (done.map Prod.snd)).length := by
        rw [hns2, idxOf_keysOf_stable _ _ _ hkmem]
        exact hidx_self
      refine ih (done ++ [p]) (pairStep st p) ?_ ?_ ?_ ?_
      · intro k'
        rw [hst1]
        show (if lowerKey p.2 = k' then some (st.m.length + 1)
          else assocLookup k' st.m) = _
        rw [hns]
        by_cases hkk : lowerKey p.2 = k'
        · rw [if_pos hkk, ← hkk]
          unfold rankOpt
          rw [if_pos hkmem, hidx_self, h2]
        · rw [if_neg hkk, h1 k']
          unfold rankOpt
          rw [hK]
          by_cases hmem : k' ∈ keysOf (done.map Prod.snd)
          · rw [if_pos hmem,
              if_pos (List.mem_append_left _ hmem),
              idxOf_append_left _ _ _ hmem]
          · rw [if_neg hmem, if_neg ?_]
            intro hcon
            rcases List.mem_append.mp hcon with hcon | hcon
            · exact hmem hcon
            · rcases List.mem_singleton.mp hcon with rfl
              exact hkk rfl
      · rw [hst1]
        show st.m.length + 1 = _
        rw [hns, hK, List.length_append, h2]
        rfl
      · rw [hst1]
        show st.arows ++ [(st.m.length + 1, p.2)] = _
        rw [hns, hD, withIds_append_singleton, h3]
        have hlen : st.m.length + 1
            = 1 + (dedupBy lowerKey [] (done.map Prod.snd)).length := by
          have hdl : (dedupBy lowerKey [] (done.map Prod.snd)).length
              = (keysOf (done.map Prod.snd)).length := by
            unfold keysOf
            rw [List.length_map]
          omega
        rw [hlen]
      · rw [hst1]
        show st.brows ++ _ = _
        rw [List.map_append (fun q : List Char × List Char => (q.1,
          idxOf (lowerKey q.2)
            (keysOf (((done ++ [p]) ++ ps).map Prod.snd)) + 1)) done [p],
          h4]
        congr 1
        simp only [List.map_cons, List.map_nil]
        rw [hidx, h2]

end AuthorLoop

section ProcessBooksAssembly

theorem authorPairs_map_snd (rows : List BookRow) :
    (authorPairs rows).map Prod.snd = allAuthorNames rows := by
  unfold authorPairs allAuthorNames
  induction survivors rows with
  | nil => rfl
  | cons r l ih =>
    simp only [List.flatMap_cons, List.map_append, ih, List.map_map]
    congr 1
    simp

theorem authorLoop_result (rows : List BookRow) :
    ((survivors rows).foldl rowStep ⟨[], [], []⟩).arows
      = withIds 1 (dedupBy lowerKey [] (allAuthorNames rows))
    ∧ ((survivors rows).foldl rowStep ⟨[], [], []⟩).brows
      = (authorPairs rows).map (fun q => (q.1,
          idxOf (lowerKey q.2) (keysOf (allAuthorNames rows)) + 1)) := by
  have hinv := authorLoop_invariant (authorPairs rows) [] ⟨[], [], []⟩
    (fun k => by
      show none = rankOpt [] k
      unfold rankOpt
      rw [if_neg (by simp [keysOf, dedupBy])])
    rfl rfl (by simp)
  rcases hinv with ⟨_, _, ha, hb⟩
  rw [foldl_rowStep_eq_pairs]
  simp only [List.nil_append] at ha hb
  rw [authorPairs_map_snd] at ha hb
  exact ⟨ha, hb⟩

theorem process_books_authors (rows : List BookRow) :
    (process_books rows).2.1
      = withIds 1 (dedupBy lowerKey [] (allAuthorNames rows)) := by
  show List.insertionSort _
      ((survivors rows).foldl rowStep ⟨[], [], []⟩).arows = _
  rw [(authorLoop_result rows).1]
  exact List.Sorted.insertionSort_eq (sorted_withIds 1 _)

theorem process_books_links (rows : List BookRow) :
    (process_books rows).2.2
      = dedupBy id [] ((authorPairs rows).map (fun q => (q.1,
          idxOf (lowerKey q.2) (keysOf (allAuthorNames rows)) + 1))) := by
  show dedupBy id []
      ((survivors rows).foldl rowStep ⟨[], [], []⟩).brows = _
  rw [(authorLoop_result rows).2]

theorem process_books_book (rows : List BookRow) :
    (process_books rows).1 = dedupBy Prod.fst [] (bookPairs rows) := rfl

end ProcessBooksAssembly

section PipelineFacts

theorem borrowerRec_Ssn (r : BorrowerRow) :
    (borrowerRec r).Ssn = (normWS r.ssn).filter (fun c => !(c == '-')) := rfl

theorem survivors_filter (rows : List BookRow) :
    survivors (rows.filter (fun r => !(normWS r.ISBN10).isEmpty))
      = survivors rows := by
  unfold survivors
  induction rows with
  | nil => rfl
  | cons r rows ih =>
    cases hx : (normWS r.ISBN10).isEmpty with
    | true =>
      have hQ : (normBookRow r).ISBN10.isEmpty = true := hx
      simp only [List.filter_cons, List.map_cons, hx, hQ, Bool.not_true,
        Bool.false_eq_true, if_false]
      exact ih
    | false =>
      have hQ : (normBookRow r).ISBN10.isEmpty = false := hx
      simp only [List.filter_cons, List.map_cons, hx, hQ, Bool.not_false,
        if_true]
      rw [ih]

theorem process_books_filter_eq (rows : List BookRow) :
    process_books rows
      = process_books (rows.filter (fun r => !(normWS r.ISBN10).isEmpty)) := by
  unfold process_books
  rw [survivors_filter]

theorem mem_survivors_isbn_ne (rows : List BookRow) (r : BookRow)
    (h : r ∈ survivors rows) : r.ISBN10 ≠ [] := by
  unfold survivors at h
  rcases List.mem_filter.mp h with ⟨_, hq⟩
  intro hnil
  rw [hnil] at hq
  simp at hq

theorem mem_authorPairs (rows : List BookRow) (q : List Char × List Char)
    (h : q ∈ authorPairs rows) :
    ∃ r ∈ survivors rows, q.1 = r.ISBN10 ∧ q.2 ∈ split_authors r.Author := by
  unfold authorPairs at h
  rcases List.mem_flatMap.mp h with ⟨r, hr, hq⟩
  rcases List.mem_map.mp hq with ⟨n, hn, rfl⟩
  exact ⟨r, hr, rfl, hn⟩

theorem authors_nodup_keys (rows : List BookRow) :
    ((process_books rows).2.1.map (fun a => lowerKey a.2)).Nodup := by
  rw [process_books_authors rows]
  rw [show (fun a : Nat × List Char => lowerKey a.2)
    = lowerKey ∘ Prod.snd from rfl]
  rw [← List.map_map, withIds_map_snd]
  exact nodup_map_key_dedupBy lowerKey [] (allAuthorNames rows)

theorem authors_complete (rows : List BookRow) :
    ∀ n ∈ allAuthorNames rows,
      ∃ a ∈ (process_books rows).2.1, lowerKey a.2 = lowerKey n := by
  intro n hn
  rcases exists_mem_dedupBy lowerKey [] (allAuthorNames rows) n hn (by simp)
    with ⟨b, hb, hkb⟩
  rcases exists_mem_withIds 1 _ b hb with ⟨a, ha, has⟩
  refine ⟨a, ?_, ?_⟩
  · rw [process_books_authors rows]
    exact ha
  · rw [has]
    exact hkb

theorem authors_first_casing (rows : List BookRow) :
    ∀ a ∈ (process_books rows).2.1,
      ((allAuthorNames rows).filter
        (fun x => decide (lowerKey x = lowerKey a.2))).head? = some a.2 := by
  intro a ha
  rw [process_books_authors rows] at ha
  exact head_filter_of_mem_dedupBy lowerKey [] _ _
    (snd_mem_of_mem_withIds 1 _ a ha)

theorem links_nodup (rows : List BookRow) :
    (process_books rows).2.2.Nodup := by
  rw [process_books_links]
  have h := nodup_map_key_dedupBy id []
    ((authorPairs rows).map (fun q => (q.1,
      idxOf (lowerKey q.2) (keysOf (allAuthorNames rows)) + 1)))
  rwa [List.map_id] at h

end PipelineFacts

/-- Claim C1 (counterexample): for the spec's borrower composition example the
claimed output triple does not arise — the composed name "jane DOE" is mixed
case, so `title_case` leaves it unchanged and Bname is not "Jane Doe". -/
theorem C1_borrower_composition_counterexample :
    ¬ ((process_borrowers [c1Row]).map (fun b => (b.Bname, b.Address, b.Ssn))
      = [("Jane Doe".toList, "1 Main St, Springfield, IL".toList,
          "123456789".toList)]) := by
  decide

/-- Claim C1 (amended): for a borrower row with first_name "jane", last_name
"DOE", address "1 Main St", city "Springfield", state "IL", ssn "123-45-6789",
`process_borrowers` produces Bname "jane DOE" (the concatenation is mixed case
and is therefore left unchanged by the conditional title-casing),
Address "1 Main St, Springfield, IL" and Ssn "123456789". -/
theorem C1_borrower_composition_amended :
    (process_borrowers [c1Row]).map (fun b => (b.Bname, b.Address, b.Ssn))
      = [("jane DOE".toList, "1 Main St, Springfield, IL".toList,
          "123456789".toList)] := by
  decide

/-- Claim C2: `title_case` title-cases exactly the non-empty
whitespace-normalized strings that are entirely lower- or upper-case (in the
host library's sense) and returns the normalized string unchanged otherwise;
in particular on "JANE DOE", "jane doe" and "McDonald's Farm". -/
theorem C2_title_case_conditional :
    (∀ s : List Char, title_case s =
      if normWS s ≠ [] ∧ (pyIsLower (normWS s) || pyIsUpper (normWS s)) = true
      then pyTitle (normWS s) else normWS s)
    ∧ title_case "JANE DOE".toList = "Jane Doe".toList
    ∧ title_case "jane doe".toList = "Jane Doe".toList
    ∧ title_case mcdFarm = mcdFarm := by
  refine ⟨?_, by decide, by decide, by decide⟩
  intro s
  by_cases h1 : (normWS s).isEmpty = true
  · have hnil : normWS s = [] := List.isEmpty_iff.mp h1
    rw [if_neg (fun hc => hc.1 hnil)]
    show title_case s = normWS s
    simp only [title_case]
    rw [if_pos h1, hnil]
  · by_cases h2 : (pyIsLower (normWS s) || pyIsUpper (normWS s)) = true
    · rw [if_pos ⟨fun hnil => h1 (by rw [hnil]; rfl), h2⟩]
      show title_case s = pyTitle (normWS s)
      simp only [title_case]
      rw [if_neg h1, if_pos h2]
    · rw [if_neg (fun hc => h2 hc.2)]
      show title_case s = normWS s
      simp only [title_case]
      rw [if_neg h1, if_neg h2]

/-- Claim C3 (counterexample): the output Ssn field is not always digits-only;
the code removes hyphens but performs no validation, so a non-digit ssn
character survives into the output. -/
theorem C3_ssn_digits_counterexample :
    ¬ (∀ b ∈ process_borrowers [c3Row], b.Ssn.all Char.isDigit = true) := by
  decide

/-- Claim C3 (amended): every output Ssn field is the whitespace-normalized
ssn of some input row with every hyphen removed, and it is digits-only
whenever that normalized ssn consists of digits and hyphens only. -/
theorem C3_ssn_hyphens_amended (rows : List BorrowerRow) :
    ∀ b ∈ process_borrowers rows, ∃ r ∈ rows,
      b.Ssn = (normWS r.ssn).filter (fun c => !(c == '-'))
      ∧ ((normWS r.ssn).all (fun c => c.isDigit || c == '-') = true →
          b.Ssn.all Char.isDigit = true) := by
  intro b hb
  have hmem : b ∈ rows.map borrowerRec :=
    (dedupBy_sublist BorrowerRec.Card_id [] (rows.map borrowerRec)).subset hb
  rcases List.mem_map.mp hmem with ⟨r, hr, rfl⟩
  refine ⟨r, hr, borrowerRec_Ssn r, ?_⟩
  intro hall
  rw [borrowerRec_Ssn r]
  rw [List.all_eq_true] at hall ⊢
  intro c hc
  rcases List.mem_filter.mp hc with ⟨hcl, hcn⟩
  have hd := hall c hcl
  simp only [Bool.or_eq_true, beq_iff_eq] at hd
  rcases hd with hd | hh
  · exact hd
  · rw [hh] at hcn
    simp at hcn

/-- Claim C3 (witness): the amended statement applied to the concrete row
whose ssn is "12a-45". -/
theorem C3_ssn_hyphens_amended_witness :
    ∃ r ∈ [c3Row],
      (borrowerRec c3Row).Ssn = (normWS r.ssn).filter (fun c => !(c == '-'))
      ∧ ((normWS r.ssn).all (fun c => c.isDigit || c == '-') = true →
          (borrowerRec c3Row).Ssn.all Char.isDigit = true) :=
  C3_ssn_hyphens_amended [c3Row] (borrowerRec c3Row) (by decide)

/-- Claim C4: `split_authors` deduplicates the cleaned name parts
case-insensitively, keeping only the first occurrence of each name (in the
first-seen casing) and preserving the order of first appearance; in
particular it maps "Jane Doe; jane doe, JANE DOE" to ["Jane Doe"]. -/
theorem C4_split_authors_dedup :
    (∀ field : List Char,
      split_authors field = dedupBy lowerKey [] (rawNames field)
      ∧ (split_authors field).Sublist (rawNames field)
      ∧ ((split_authors field).map lowerKey).Nodup
      ∧ (∀ n ∈ rawNames field,
          ∃ m ∈ split_authors field, lowerKey m = lowerKey n)
      ∧ (∀ m ∈ split_authors field,
          ((rawNames field).filter
            (fun x => decide (lowerKey x = lowerKey m))).head? = some m))
    ∧ split_authors c4Field = ["Jane Doe".toList] := by
  refine ⟨fun field => ?_, by decide⟩
  have he := split_authors_eq_dedup field
  refine ⟨he, ?_, ?_, ?_, ?_⟩
  · rw [he]
    exact dedupBy_sublist _ _ _
  · rw [he]
    exact nodup_map_key_dedupBy _ _ _
  · intro n hn
    rw [he]
    exact exists_mem_dedupBy lowerKey [] _ n hn (by simp)
  · intro m hm
    rw [he] at hm
    exact head_filter_of_mem_dedupBy lowerKey [] _ m hm

/-- Claim C4 (witness): the deduplication facts applied to the spec's example
field at the name "Jane Doe". -/
theorem C4_split_authors_dedup_witness :
    ∃ m ∈ split_authors c4Field, lowerKey m = lowerKey "Jane Doe".toList :=
  (C4_split_authors_dedup.1 c4Field).2.2.2.1 "Jane Doe".toList (by decide)

/-- Claim C5: the authors table of `process_books` is exactly the list of
distinct author names (case-insensitively, first-seen casing, order of first
appearance across all surviving rows) numbered consecutively from 1; hence
the ids are the dense range 1..N in ascending order, the case-insensitive
names are pairwise distinct, every parsed author name is represented, and
each record holds the first-seen casing. -/
theorem C5_author_ids_dense (rows : List BookRow) :
    (process_books rows).2.1
      = withIds 1 (dedupBy lowerKey [] (allAuthorNames rows))
    ∧ (process_books rows).2.1.map Prod.fst
      = List.range' 1 (process_books rows).2.1.length
    ∧ ((process_books rows).2.1.map (fun a => lowerKey a.2)).Nodup
    ∧ (∀ n ∈ allAuthorNames rows,
        ∃ a ∈ (process_books rows).2.1, lowerKey a.2 = lowerKey n)
    ∧ (∀ a ∈ (process_books rows).2.1,
        ((allAuthorNames rows).filter
          (fun x => decide (lowerKey x = lowerKey a.2))).head? = some a.2) := by
  refine ⟨process_books_authors rows, ?_, authors_nodup_keys rows,
    authors_complete rows, authors_first_casing rows⟩
  rw [process_books_authors rows, withIds_map_fst, withIds_length]

/-- Claim C5 (witness): author-registry completeness applied to concrete book
rows at the name "Jane Doe". -/
theorem C5_author_ids_dense_witness :
    ∃ a ∈ (process_books exBooksA).2.1,
      lowerKey a.2 = lowerKey "Jane Doe".toList :=
  (C5_author_ids_dense exBooksA).2.2.2.1 "Jane Doe".toList (by decide)

/-- Claim C6: the book_authors table contains no duplicate (Isbn, Author_id)
pair, and the authors table has exactly one row per distinct case-insensitive
author name (pairwise-distinct keys plus completeness); this holds for every
input, in particular for duplicate-ISBN rows with overlapping author sets in
different casings. -/
theorem C6_no_duplicate_links (rows : List BookRow) :
    (process_books rows).2.2.Nodup
    ∧ ((process_books rows).2.1.map (fun a => lowerKey a.2)).Nodup
    ∧ (∀ n ∈ allAuthorNames rows,
        ∃ a ∈ (process_books rows).2.1, lowerKey a.2 = lowerKey n) :=
  ⟨links_nodup rows, authors_nodup_keys rows, authors_complete rows⟩

/-- Claim C6 (witness): applied to two rows with the same ISBN10 and the same
author in two casings. -/
theorem C6_no_duplicate_links_witness :
    (process_books exBooksOverlap).2.2.Nodup
    ∧ (∃ a ∈ (process_books exBooksOverlap).2.1,
        lowerKey a.2 = lowerKey "JANE DOE".toList) :=
  ⟨(C6_no_duplicate_links exBooksOverlap).1,
    (C6_no_duplicate_links exBooksOverlap).2.2 "Jane Doe".toList (by decide)⟩

/-- Claim C7: rows whose ISBN10 is empty after whitespace normalization
contribute nothing to any output table (removing them leaves `process_books`
unchanged), and every Isbn appearing in the book table or in the
book_authors table is non-empty.  The function is total, so no error is
raised. -/
theorem C7_missing_isbn_dropped (rows : List BookRow) :
    process_books rows
      = process_books (rows.filter (fun r => !(normWS r.ISBN10).isEmpty))
    ∧ (∀ b ∈ (process_books rows).1, b.1 ≠ [])
    ∧ (∀ l ∈ (process_books rows).2.2, l.1 ≠ []) := by
  refine ⟨process_books_filter_eq rows, ?_, ?_⟩
  · intro b hb
    rw [process_books_book] at hb
    have hbp : b ∈ bookPairs rows :=
      (dedupBy_sublist Prod.fst [] (bookPairs rows)).subset hb
    unfold bookPairs at hbp
    rcases List.mem_map.mp hbp with ⟨r, hr, rfl⟩
    exact mem_survivors_isbn_ne rows r hr
  · intro l hl
    rw [process_books_links] at hl
    have hl2 := (dedupBy_sublist id []
      ((authorPairs rows).map (fun q => (q.1,
        idxOf (lowerKey q.2) (keysOf (allAuthorNames rows)) + 1)))).subset hl
    rcases List.mem_map.mp hl2 with ⟨q, hq, rfl⟩
    rcases mem_authorPairs rows q hq with ⟨r, hr, hq1, _⟩
    show q.1 ≠ []
    rw [hq1]
    exact mem_survivors_isbn_ne rows r hr

/-- Claim C7 (witness): applied to a concrete list containing a row whose
ISBN10 is whitespace-only. -/
theorem C7_missing_isbn_dropped_witness :
    process_books exBooksBlank
      = process_books (exBooksBlank.filter (fun r => !(normWS r.ISBN10).isEmpty))
    ∧ ("333".toList, "T3".toList).1 ≠ ([] : List Char) :=
  ⟨(C7_missing_isbn_dropped exBooksBlank).1,
    (C7_missing_isbn_dropped exBooksBlank).2.1
      ("333".toList, "T3".toList) (by decide)⟩

/-- Claim C8: duplicate keys are resolved by first-occurrence-wins
deduplication with no error raised: the book table and the borrower table
have pairwise-distinct keys, are order-preserving subselections of the
projected rows, represent every projected key, and every surviving record is
the first projected record bearing its key. -/
theorem C8_first_occurrence_wins :
    (∀ rows : List BookRow,
      ((process_books rows).1.map Prod.fst).Nodup
      ∧ (process_books rows).1.Sublist (bookPairs rows)
      ∧ (∀ q ∈ bookPairs rows, ∃ b ∈ (process_books rows).1, b.1 = q.1)
      ∧ (∀ b ∈ (process_books rows).1,
          ((bookPairs rows).filter
            (fun q => decide (q.1 = b.1))).head? = some b))
    ∧ (∀ rows : List BorrowerRow,
      ((process_borrowers rows).map BorrowerRec.Card_id).Nodup
      ∧ (process_borrowers rows).Sublist (rows.map borrowerRec)
      ∧ (∀ q ∈ rows.map borrowerRec,
          ∃ b ∈ process_borrowers rows, b.Card_id = q.Card_id)
      ∧ (∀ b ∈ process_borrowers rows,
          ((rows.map borrowerRec).filter
            (fun q => decide (q.Card_id = b.Card_id))).head? = some b)) := by
  constructor
  · intro rows
    refine ⟨?_, ?_, ?_, ?_⟩
    · rw [process_books_book]
      exact nodup_map_key_dedupBy Prod.fst [] (bookPairs rows)
    · rw [process_books_book]
      exact dedupBy_sublist Prod.fst [] (bookPairs rows)
    · intro q hq
      rw [process_books_book]
      rcases exists_mem_dedupBy Prod.fst [] (bookPairs rows) q hq (by simp)
        with ⟨b, hb, hkb⟩
      exact ⟨b, hb, hkb⟩
    · intro b hb
      rw [process_books_book] at hb
      exact head_filter_of_mem_dedupBy Prod.fst [] (bookPairs rows) b hb
  · intro rows
    refine ⟨?_, ?_, ?_, ?_⟩
    · exact nodup_map_key_dedupBy BorrowerRec.Card_id [] (rows.map borrowerRec)
    · exact dedupBy_sublist BorrowerRec.Card_id [] (rows.map borrowerRec)
    · intro q hq
      rcases exists_mem_dedupBy BorrowerRec.Card_id [] (rows.map borrowerRec)
        q hq (by simp) with ⟨b, hb, hkb⟩
      exact ⟨b, hb, hkb⟩
    · intro b hb
      exact head_filter_of_mem_dedupBy BorrowerRec.Card_id []
        (rows.map borrowerRec) b hb

/-- Claim C8 (witness): applied to a duplicate-ISBN book list and a
duplicate-Card_id borrower list. -/
theorem C8_first_occurrence_wins_witness :
    (∃ b ∈ (process_books exBooksDupIsbn).1,
      b.1 = ("111".toList, "T2".toList).1)
    ∧ (∃ b ∈ process_borrowers exBorrowersDup,
        b.Card_id = (borrowerRec
          ⟨"ID9".toList, "Ann".toList, "Lee".toList, "4 Ash St".toList,
            "Gotham".toList, "NJ".toList, "558".toList,
            "111-22-3333".toList⟩).Card_id) :=
  ⟨(C8_first_occurrence_wins.1 exBooksDupIsbn).2.2.1
      ("111".toList, "T2".toList) (by decide),
    (C8_first_occurrence_wins.2 exBorrowersDup).2.2.1
      (borrowerRec
        ⟨"ID9".toList, "Ann".toList, "Lee".toList, "4 Ash St".toList,
          "Gotham".toList, "NJ".toList, "558".toList, "111-22-3333".toList⟩)
      (by decide)⟩

/-- Claim C9: `normalize_whitespace` is idempotent on every input (the `none`
case models a missing value, which is sent to the empty string). -/
theorem C9_normalize_whitespace_idempotent (s : Option (List Char)) :
    normalize_whitespace (some (normalize_whitespace s))
      = normalize_whitespace s := by
  cases s with
  | none => rfl
  | some l => exact normWS_idem l

/-- Claim C10: the three tables of `process_books` are referentially
consistent: every (Isbn, Author_id) pair of the book_authors table has its
Isbn in the book table and its Author_id in the authors table. -/
theorem C10_referential_integrity (rows : List BookRow) :
    ∀ pr ∈ (process_books rows).2.2,
      pr.1 ∈ (process_books rows).1.map Prod.fst
      ∧ pr.2 ∈ (process_books rows).2.1.map Prod.fst := by
  intro pr hpr
  rw [process_books_links] at hpr
  have hpr2 := (dedupBy_sublist id []
    ((authorPairs rows).map (fun q => (q.1,
      idxOf (lowerKey q.2) (keysOf (allAuthorNames rows)) + 1)))).subset hpr
  rcases List.mem_map.mp hpr2 with ⟨q, hq, rfl⟩
  rcases mem_authorPairs rows q hq with ⟨r, hr, hq1, hq2⟩
  constructor
  · show q.1 ∈ _
    rw [process_books_book]
    have hbp : (r.ISBN10, r.Title) ∈ bookPairs rows := by
      unfold bookPairs
      exact List.mem_map.mpr ⟨r, hr, rfl⟩
    rcases exists_mem_dedupBy Prod.fst [] (bookPairs rows) _ hbp (by simp)
      with ⟨b, hb, hkb⟩
    refine List.mem_map.mpr ⟨b, hb, ?_⟩
    rw [hkb, hq1]
  · show (idxOf (lowerKey q.2) (keysOf (allAuthorNames rows)) + 1) ∈ _
    rw [process_books_authors]
    have hnmem : q.2 ∈ allAuthorNames rows := by
      unfold allAuthorNames
      exact List.mem_flatMap.mpr ⟨r, hr, hq2⟩
    have hkmem : lowerKey q.2 ∈ keysOf (allAuthorNames rows) := by
      rcases exists_mem_dedupBy lowerKey [] _ _ hnmem (by simp)
        with ⟨b, hb, hkb⟩
      unfold keysOf
      exact List.mem_map.mpr ⟨b, hb, hkb⟩
    have hlt := idxOf_lt_length _ _ hkmem
    have hlen : (keysOf (allAuthorNames rows)).length
        = (dedupBy lowerKey [] (allAuthorNames rows)).length := by
      unfold keysOf
      rw [List.length_map]
    exact mem_map_fst_withIds 1 _ _ (by omega) (by omega)

/-- Claim C10 (witness): applied to concrete book rows at the link
("111", 1). -/
theorem C10_referential_integrity_witness :
    ("111".toList, 1).1 ∈ (process_books exBooksA).1.map Prod.fst
    ∧ ("111".toList, 1).2 ∈ (process_books exBooksA).2.1.map Prod.fst :=
  C10_referential_integrity exBooksA ("111".toList, 1) (by decide)
